import Mathlib

/-!
# Verification of the serial-to-spiral-art pipeline (utrahacks-2026 / NFT)

Shallow embedding of the three Python scripts under `NFT/`:

* `app.py`   — Flask app: serial reader thread (`read_from_serial`), sample
  accumulation into `all_samples` (capacity `MAX_SAMPLES = 200`), spiral
  rendering on fullness (`generate_nft`), status endpoint (`get_data`),
  and `reset`.
* `live_plot.py` — live ultrasonic chart: `update` parses the last decimal
  digit run of each serial line into a distance, range-checked to [0, 500],
  and pushes it into a `deque` of fixed length `MAX_HISTORY = 100`.
* `main.py`  — one-shot collection loop plus a second spiral-render variant
  (different angle step, circle-size and colour constants).

Lines are modelled as `List Char`.  Python's `int(...)` on strings is
modelled by `pyInt?` (surrounding whitespace, one optional sign, then a
nonempty decimal digit run; underscore digit separators and non-ASCII
digits are not modelled).  The renderer is modelled at the level of the
drawing commands it issues: every circle is recorded with the polar
parameters (angle, spiral radius) that the source feeds through
`cos`/`sin`, its size, and its clamped colour, all in exact rational
arithmetic.
-/

/-- Whitespace characters stripped by Python's `int(str)` conversion. -/
def pyIsSpace (c : Char) : Bool :=
  c == ' ' || c == '\t' || c == '\n' || c == '\r' || c == '\x0b' || c == '\x0c'

/-- Strip leading and trailing whitespace, as Python `int` does before
parsing the digits. -/
def pyStrip (l : List Char) : List Char :=
  ((l.dropWhile pyIsSpace).reverse.dropWhile pyIsSpace).reverse

/-- Numeric value of a decimal digit string (most significant first). -/
def natOfDigits (l : List Char) : Nat :=
  l.foldl (fun a c => 10 * a + (c.toNat - 48)) 0

/-- Model of Python `int(s)` for a text field: optional surrounding
whitespace, one optional `+`/`-` sign, then a nonempty run of decimal
digits; anything else raises `ValueError`, i.e. yields `none`. -/
def pyInt? (l : List Char) : Option Int :=
  let s := pyStrip l
  let core := if s.head? = some '-' ∨ s.head? = some '+' then s.tail else s
  if core ≠ [] ∧ core.all Char.isDigit then
    if s.head? = some '-' then some (-(natOfDigits core : Int))
    else some ((natOfDigits core : Int))
  else none

/-- Python `str.split(",")`: split at every comma, keeping empty fields
(`"".split(",") == [""]`). -/
def splitComma : List Char → List (List Char)
  | [] => [[]]
  | c :: rest =>
    if c = ',' then [] :: splitComma rest
    else
      match splitComma rest with
      | [] => [[c]]
      | p :: ps => (c :: p) :: ps

/-- Python `line.replace("RGB:", "")`: remove every (left-to-right,
non-overlapping) occurrence of the marker `RGB:`, anywhere in the line. -/
def stripAllRGB : List Char → List Char
  | c1 :: c2 :: c3 :: c4 :: rest =>
    if c1 = 'R' ∧ c2 = 'G' ∧ c3 = 'B' ∧ c4 = ':' then stripAllRGB rest
    else c1 :: stripAllRGB (c2 :: c3 :: c4 :: rest)
  | [] => []
  | c :: rest => c :: stripAllRGB rest

/-- The RGB-triplet parse of `app.py` lines 125–142 (identical in
`main.py` lines 117–126): for a line starting with `RGB:`, remove every
occurrence of the marker, split the result on commas, and accept exactly
three integer fields. -/
def parseRGB (line : List Char) : Option (Int × Int × Int) :=
  if line.take 4 = ['R', 'G', 'B', ':'] then
    match splitComma (stripAllRGB line) with
    | [p1, p2, p3] =>
      match pyInt? p1, pyInt? p2, pyInt? p3 with
      | some r, some g, some b => some (r, g, b)
      | _, _, _ => none
    | _ => none
  else none

/-- Accumulator-passing scan behind `digitRuns`; `acc` holds the digits of
the run currently being read, in reverse. -/
def digitRunsAux : List Char → List Char → List (List Char)
  | acc, [] => if acc.isEmpty then [] else [acc.reverse]
  | acc, c :: cs =>
    if c.isDigit then digitRunsAux (c :: acc) cs
    else if acc.isEmpty then digitRunsAux [] cs
    else acc.reverse :: digitRunsAux [] cs

/-- Python `re.findall(r"\d+", line)`: the maximal runs of decimal digits
in the line, in order. -/
def digitRuns (l : List Char) : List (List Char) := digitRunsAux [] l

/-- The bare-distance parse of `live_plot.py` lines 53–58: take the last
digit run as the reading, keep it only if `0 <= dist <= 500`. -/
def parseDist (line : List Char) : Option Int :=
  match (digitRuns line).getLast? with
  | none => none
  | some run =>
    let dist : Int := (natOfDigits run : Int)
    if 0 ≤ dist ∧ dist ≤ 500 then some dist else none

/-- `MAX_SAMPLES` of `app.py` (= `SAMPLES` of `main.py`). -/
def MAX_SAMPLES : Nat := 200

/-- The shared mutable state of `app.py`: `latest_data` (as the triple of
its `r`, `g`, `b` entries), `all_samples`, and `nft_generated`. -/
structure AppState where
  latest : Int × Int × Int
  samples : List (Int × Int × Int)
  nftGenerated : Bool
deriving DecidableEq

/-- One observable side effect of the serial thread on the shared state. -/
inductive SerialEvent where
  | setLatest (s : Int × Int × Int)
  | append (s : Int × Int × Int)
  | generate
deriving DecidableEq

def isGenerate : SerialEvent → Bool
  | .generate => true
  | _ => false

/-- The sequence of state effects `read_from_serial` (app.py lines
125–142) performs for one input line, in program order: on a successful
parse it first stores the triple into `latest_data`, then — only if
`len(all_samples) < MAX_SAMPLES` — appends it, and fires `generate_nft`
when the length after the append equals `MAX_SAMPLES` (hence the `+ 1`:
the source checks `len(all_samples) == MAX_SAMPLES` after appending). -/
def lineEvents (st : AppState) (line : List Char) : List SerialEvent :=
  match parseRGB line with
  | none => []
  | some s =>
    SerialEvent.setLatest s ::
      (if st.samples.length < MAX_SAMPLES then
        SerialEvent.append s ::
          (if st.samples.length + 1 = MAX_SAMPLES then [SerialEvent.generate] else [])
      else [])

/-- Effect of a single `SerialEvent` on the shared state.  `generate`
models `generate_nft`, whose only shared-state effect is setting
`nft_generated = True`. -/
def applyEvent (st : AppState) : SerialEvent → AppState
  | .setLatest s => { st with latest := s }
  | .append s => { st with samples := st.samples ++ [s] }
  | .generate => { st with nftGenerated := true }

/-- State after `read_from_serial` processes one line. -/
def stepState (st : AppState) (line : List Char) : AppState :=
  (lineEvents st line).foldl applyEvent st

/-- How many times `generate_nft` fires while processing one line. -/
def fires (st : AppState) (line : List Char) : Nat :=
  ((lineEvents st line).filter isGenerate).length

/-- State after `read_from_serial` processes a sequence of lines. -/
def runState : AppState → List (List Char) → AppState
  | st, [] => st
  | st, l :: ls => runState (stepState st l) ls

/-- Total number of `generate_nft` firings over a sequence of lines. -/
def runFires : AppState → List (List Char) → Nat
  | _, [] => 0
  | st, l :: ls => fires st l + runFires (stepState st l) ls

/-- The `/reset` route of `app.py` lines 163–168: clear `all_samples` and
`nft_generated`; `latest_data` is not touched. -/
def reset (st : AppState) : AppState :=
  { st with samples := [], nftGenerated := false }

/-- The JSON payload of the `/data` route. -/
structure DataResponse where
  r : Int
  g : Int
  b : Int
  count : Nat
  max : Nat
  done : Bool
deriving DecidableEq

/-- The `/data` route of `app.py` lines 154–161. -/
def get_data (st : AppState) : DataResponse :=
  { r := st.latest.1, g := st.latest.2.1, b := st.latest.2.2
    count := st.samples.length, max := MAX_SAMPLES, done := st.nftGenerated }

/-- The per-variant constants of the spiral renderer: angle step per
sample, base spiral radius, minimum circle size, the two constants of the
size formula `max(sizeMin, sizeBase - intensity / sizeDiv)`, and the
colour-inversion scale of `255 - channel * colorScale`. -/
structure RenderParams where
  angleStep : ℚ
  baseRadius : ℚ
  sizeMin : ℚ
  sizeBase : ℚ
  sizeDiv : ℚ
  colorScale : ℚ
deriving DecidableEq

/-- One drawn circle, recorded by the polar parameters the source feeds
into `cos`/`sin` (its centre is `center + radius * (cos angle, sin
angle)`), its size, and its clamped 8-bit colour. -/
structure SpiralCircle where
  angle : ℚ
  radius : ℚ
  size : ℚ
  color : Int × Int × Int
deriving DecidableEq

/-- The rendered canvas: fixed pixel dimensions, fixed background colour,
and the ordered list of circles drawn on top (draw order = list order). -/
structure RenderOutput where
  size : Nat × Nat
  background : Int × Int × Int
  circles : List SpiralCircle
deriving DecidableEq

/-- `max_radius = min(CANVAS_SIZE) // 2 - 20` with `CANVAS_SIZE = (800, 800)`. -/
def MAX_RADIUS : Nat := min 800 800 / 2 - 20

/-- The guarded progress `t = i / max(1, len(samples))` of both spiral
loops (`app.py` line 48, `main.py` line 142). -/
def tProgress (i L : Nat) : ℚ := (i : ℚ) / ((max 1 L : Nat) : ℚ)

/-- Python `int(...)` applied to a float/rational: truncation toward zero. -/
def ratTrunc (q : ℚ) : Int := if q < 0 then -(Int.floor (-q)) else Int.floor q

/-- One output colour channel: `int(max(0, min(255, 255 - v * colorScale)))`. -/
def chanOf (p : RenderParams) (v : Int) : Int :=
  ratTrunc (max 0 (min 255 (255 - (v : ℚ) * p.colorScale)))

/-- The circle drawn for the sample at index `i` (0-based) of `L` total:
body of the `for i, (r, g, b) in enumerate(...)` loops (`app.py` lines
47–66, `main.py` lines 140–168). -/
def circleFor (p : RenderParams) (L i : Nat) (s : Int × Int × Int) : SpiralCircle :=
  let t : ℚ := tProgress i L
  let intensity : ℚ := ((s.1 + s.2.1 + s.2.2 : Int) : ℚ) / 3
  { angle := (i : ℚ) * p.angleStep
    radius := p.baseRadius + t * (MAX_RADIUS : ℚ)
    size := max p.sizeMin (p.sizeBase - intensity / p.sizeDiv)
    color := (chanOf p s.1, chanOf p s.2.1, chanOf p s.2.2) }

/-- The spiral renderer: an 800×800 canvas with background `(10, 10, 20)`
and one circle per sample, drawn in sample order. -/
def generateArt (p : RenderParams) (samples : List (Int × Int × Int)) : RenderOutput :=
  { size := (800, 800)
    background := (10, 10, 20)
    circles := samples.enum.map (fun e => circleFor p samples.length e.1 e.2) }

/-- Constants of the `generate_nft` variant in `app.py`: `angle = i * 0.8`,
`circle_size = max(3, 15 - intensity / 10)`, `255 - channel * 1.5`. -/
def appRenderParams : RenderParams :=
  { angleStep := 4 / 5, baseRadius := 10, sizeMin := 3, sizeBase := 15
    sizeDiv := 10, colorScale := 3 / 2 }

/-- Constants of the module-level render in `main.py`: `angle = i * 0.5`,
`circle_size = max(5, 40 - intensity / 2)`, `255 - channel * 2.5`. -/
def mainRenderParams : RenderParams :=
  { angleStep := 1 / 2, baseRadius := 10, sizeMin := 5, sizeBase := 40
    sizeDiv := 2, colorScale := 5 / 2 }

/-- The drawing portion of `generate_nft` (`app.py` lines 40–66). -/
def generate_nft (samples : List (Int × Int × Int)) : RenderOutput :=
  generateArt appRenderParams samples

/-- The module-level spiral render of `main.py` (lines 134–168). -/
def main_render (samples : List (Int × Int × Int)) : RenderOutput :=
  generateArt mainRenderParams samples

/-- `MAX_HISTORY` of `live_plot.py`. -/
def MAX_HISTORY : Nat := 100

/-- `data_buffer = collections.deque([0] * MAX_HISTORY, maxlen=MAX_HISTORY)`. -/
def data_buffer_init : List Int := List.replicate MAX_HISTORY 0

/-- Appending to a `deque` with `maxlen = MAX_HISTORY`: once at capacity,
the leftmost (oldest) element is evicted. -/
def deque_append (buf : List Int) (v : Int) : List Int :=
  if buf.length < MAX_HISTORY then buf ++ [v] else buf.drop 1 ++ [v]

/-- The `update` callback of `live_plot.py` (lines 49–59): parse every
pending line and push each accepted reading into the history deque. -/
def update (buf : List Int) (lines : List (List Char)) : List Int :=
  lines.foldl
    (fun b l => match parseDist l with | some d => deque_append b d | none => b) buf

/-- Canonical decimal digit characters, used to build test lines. -/
def digitChar : Nat → Char
  | 0 => '0' | 1 => '1' | 2 => '2' | 3 => '3' | 4 => '4'
  | 5 => '5' | 6 => '6' | 7 => '7' | 8 => '8' | _ => '9'

/-- Canonical decimal rendering of a natural number (no sign, no leading
zeros except for `0` itself). -/
def natDigits (n : Nat) : List Char :=
  if _h : n < 10 then [digitChar n]
  else natDigits (n / 10) ++ [digitChar (n % 10)]
decreasing_by exact Nat.div_lt_self (by omega) (by omega)

/-- Canonical decimal rendering of an integer. -/
def intDigits (i : Int) : List Char :=
  if i < 0 then '-' :: natDigits i.natAbs else natDigits i.natAbs

/-- The serial line `RGB:<r>,<g>,<b>` with canonically rendered fields. -/
def rgbLine (r g b : Int) : List Char :=
  ['R', 'G', 'B', ':'] ++ intDigits r ++ [','] ++ intDigits g ++ [','] ++ intDigits b

/-! ## Helper lemmas about the character-level models -/

theorem char_ne_of_isDigit {c : Char} (h : c.isDigit = true) {d : Char}
    (hd : d.isDigit = false) : c ≠ d := by
  intro he
  rw [he, hd] at h
  cases h

theorem pyIsSpace_of_isDigit {c : Char} (h : c.isDigit = true) : pyIsSpace c = false := by
  simp only [pyIsSpace, Bool.or_eq_false_iff, beq_eq_false_iff_ne]
  exact ⟨⟨⟨⟨⟨char_ne_of_isDigit h (by decide), char_ne_of_isDigit h (by decide)⟩,
    char_ne_of_isDigit h (by decide)⟩, char_ne_of_isDigit h (by decide)⟩,
    char_ne_of_isDigit h (by decide)⟩, char_ne_of_isDigit h (by decide)⟩

theorem dropWhile_eq_self_of_all {p : Char → Bool} :
    ∀ l : List Char, (∀ c ∈ l, p c = false) → l.dropWhile p = l := by
  intro l h
  cases l with
  | nil => rfl
  | cons c cs => simp [List.dropWhile_cons, h c (by simp)]

theorem pyStrip_eq_self {l : List Char} (h : ∀ c ∈ l, pyIsSpace c = false) :
    pyStrip l = l := by
  unfold pyStrip
  rw [dropWhile_eq_self_of_all l h,
    dropWhile_eq_self_of_all l.reverse (fun c hc => h c (List.mem_reverse.mp hc)),
    List.reverse_reverse]

theorem digitChar_isDigit (d : Nat) : (digitChar d).isDigit = true := by
  unfold digitChar
  rcases d with _ | _ | _ | _ | _ | _ | _ | _ | _ | d <;> rfl

theorem toNat_digitChar (d : Nat) (h : d < 10) : (digitChar d).toNat - 48 = d := by
  interval_cases d <;> rfl

theorem natDigits_ne_nil (n : Nat) : natDigits n ≠ [] := by
  unfold natDigits
  split
  · simp
  · simp

theorem natDigits_all_isDigit (n : Nat) : ∀ c ∈ natDigits n, c.isDigit = true := by
  induction n using Nat.strong_induction_on with
  | _ n ih =>
    unfold natDigits
    split
    · intro c hc
      simp only [List.mem_singleton] at hc
      subst hc
      exact digitChar_isDigit n
    · next h =>
      intro c hc
      rw [List.mem_append] at hc
      rcases hc with hc | hc
      · exact ih (n / 10) (Nat.div_lt_self (by omega) (by omega)) c hc
      · simp only [List.mem_singleton] at hc
        subst hc
        exact digitChar_isDigit (n % 10)

theorem natOfDigits_append (a : List Char) (c : Char) :
    natOfDigits (a ++ [c]) = 10 * natOfDigits a + (c.toNat - 48) := by
  unfold natOfDigits
  rw [List.foldl_append]
  rfl

theorem natOfDigits_natDigits (n : Nat) : natOfDigits (natDigits n) = n := by
  induction n using Nat.strong_induction_on with
  | _ n ih =>
    unfold natDigits
    split
    · next h =>
      show 10 * 0 + ((digitChar n).toNat - 48) = n
      rw [toNat_digitChar n h]
      omega
    · next h =>
      rw [natOfDigits_append, ih (n / 10) (Nat.div_lt_self (by omega) (by omega)),
        toNat_digitChar (n % 10) (by omega)]
      omega

theorem intDigits_all {i : Int} :
    ∀ c ∈ intDigits i, c = '-' ∨ c.isDigit = true := by
  intro c hc
  unfold intDigits at hc
  split at hc
  · rcases List.mem_cons.mp hc with h | h
    · exact Or.inl h
    · exact Or.inr (natDigits_all_isDigit _ c h)
  · exact Or.inr (natDigits_all_isDigit _ c hc)

theorem pyInt?_natDigits (n : Nat) : pyInt? (natDigits n) = some (n : Int) := by
  obtain ⟨d, t, hdt⟩ : ∃ d t, natDigits n = d :: t := by
    cases h : natDigits n with
    | nil => exact absurd h (natDigits_ne_nil n)
    | cons d t => exact ⟨d, t, rfl⟩
  have hall : ∀ c ∈ natDigits n, c.isDigit = true := natDigits_all_isDigit n
  have hd : d.isDigit = true := hall d (by rw [hdt]; simp)
  have hstrip : pyStrip (natDigits n) = natDigits n :=
    pyStrip_eq_self (fun c hc => pyIsSpace_of_isDigit (hall c hc))
  have hne : ¬(some d = some '-' ∨ some d = some '+') := by
    rintro (h | h) <;> rw [Option.some_inj] at h
    · exact char_ne_of_isDigit hd (by decide) h
    · exact char_ne_of_isDigit hd (by decide) h
  simp only [pyInt?]
  rw [hstrip, hdt]
  simp only [List.head?_cons, if_neg hne]
  rw [if_pos ⟨by simp, by rw [← hdt, List.all_eq_true]; exact hall⟩]
  rw [← hdt, natOfDigits_natDigits]
  rw [if_neg (fun h => hne (Or.inl h))]

theorem pyInt?_intDigits (i : Int) : pyInt? (intDigits i) = some i := by
  unfold intDigits
  split
  · next hneg =>
    have hall : ∀ c ∈ natDigits i.natAbs, c.isDigit = true := natDigits_all_isDigit _
    have hstrip : pyStrip ('-' :: natDigits i.natAbs) = '-' :: natDigits i.natAbs := by
      refine pyStrip_eq_self (fun c hc => ?_)
      rcases List.mem_cons.mp hc with h | h
      · subst h; rfl
      · exact pyIsSpace_of_isDigit (hall c h)
    simp only [pyInt?, hstrip, List.head?_cons, List.tail_cons, eq_self_iff_true,
      true_or, if_true]
    rw [if_pos ⟨natDigits_ne_nil i.natAbs, by rw [List.all_eq_true]; exact hall⟩]
    rw [natOfDigits_natDigits]
    congr 1
    omega
  · next hpos =>
    rw [pyInt?_natDigits]
    congr 1
    omega

theorem splitComma_no_comma {l : List Char} (h : ∀ c ∈ l, c ≠ ',') :
    splitComma l = [l] := by
  induction l with
  | nil => rfl
  | cons c rest ih =>
    simp only [splitComma]
    rw [if_neg (h c (by simp)), ih (fun x hx => h x (by simp [hx]))]

theorem splitComma_append {a rest : List Char} (h : ∀ c ∈ a, c ≠ ',') :
    splitComma (a ++ ',' :: rest) = a :: splitComma rest := by
  induction a with
  | nil =>
    show splitComma (',' :: rest) = [] :: splitComma rest
    simp [splitComma]
  | cons c a' ih =>
    show splitComma (c :: (a' ++ ',' :: rest)) = (c :: a') :: splitComma rest
    simp only [splitComma]
    rw [if_neg (h c (by simp)), ih (fun x hx => h x (by simp [hx]))]

theorem stripAllRGB_no_colon : ∀ l : List Char, (∀ c ∈ l, c ≠ ':') → stripAllRGB l = l := by
  intro l
  induction l with
  | nil => intro _; rfl
  | cons c1 rest ih =>
    intro h
    match rest with
    | [] => rfl
    | [c2] => simp only [stripAllRGB]
    | [c2, c3] => simp only [stripAllRGB]
    | c2 :: c3 :: c4 :: r =>
      show stripAllRGB (c1 :: c2 :: c3 :: c4 :: r) = c1 :: c2 :: c3 :: c4 :: r
      unfold stripAllRGB
      rw [if_neg (fun hc => h c4 (by simp) (hc.2.2.2))]
      rw [ih (fun x hx => h x (by simp at hx ⊢; tauto))]

theorem intDigits_ne {i : Int} {d : Char} (hd : d.isDigit = false) (hd2 : d ≠ '-') :
    ∀ c ∈ intDigits i, c ≠ d := by
  intro c hc
  rcases intDigits_all c hc with h | h
  · subst h
    exact fun he => hd2 he.symm
  · exact char_ne_of_isDigit h hd

/-- A canonical `RGB:<r>,<g>,<b>` line parses to exactly `(r, g, b)`, for
any integers, negative ones included. -/
theorem parseRGB_rgbLine (r g b : Int) : parseRGB (rgbLine r g b) = some (r, g, b) := by
  have hnc : ∀ i : Int, ∀ c ∈ intDigits i, c ≠ ',' :=
    fun i => intDigits_ne (by decide) (by decide)
  have hncol : ∀ i : Int, ∀ c ∈ intDigits i, c ≠ ':' :=
    fun i => intDigits_ne (by decide) (by decide)
  have hline : rgbLine r g b
      = 'R' :: 'G' :: 'B' :: ':'
        :: (intDigits r ++ ',' :: (intDigits g ++ ',' :: intDigits b)) := by
    simp [rgbLine]
  have hT : ∀ c ∈ intDigits r ++ ',' :: (intDigits g ++ ',' :: intDigits b), c ≠ ':' := by
    intro c hc
    rcases List.mem_append.mp hc with h | h
    · exact hncol r c h
    · rcases List.mem_cons.mp h with h | h
      · subst h; decide
      · rcases List.mem_append.mp h with h | h
        · exact hncol g c h
        · rcases List.mem_cons.mp h with h | h
          · subst h; decide
          · exact hncol b c h
  have hstep :
      stripAllRGB ('R' :: 'G' :: 'B' :: ':'
        :: (intDigits r ++ ',' :: (intDigits g ++ ',' :: intDigits b)))
      = stripAllRGB (intDigits r ++ ',' :: (intDigits g ++ ',' :: intDigits b)) := by
    simp [stripAllRGB]
  have hstrip :
      stripAllRGB ('R' :: 'G' :: 'B' :: ':'
        :: (intDigits r ++ ',' :: (intDigits g ++ ',' :: intDigits b)))
      = intDigits r ++ ',' :: (intDigits g ++ ',' :: intDigits b) := by
    rw [hstep]
    exact stripAllRGB_no_colon _ hT
  have htake :
      List.take 4 ('R' :: 'G' :: 'B' :: ':'
        :: (intDigits r ++ ',' :: (intDigits g ++ ',' :: intDigits b)))
      = ['R', 'G', 'B', ':'] := rfl
  rw [hline]
  unfold parseRGB
  rw [if_pos htake, hstrip, splitComma_append (hnc r), splitComma_append (hnc g),
    splitComma_no_comma (hnc b)]
  dsimp only
  rw [pyInt?_intDigits, pyInt?_intDigits, pyInt?_intDigits]

/-! ## C1: the RGB-triplet parse -/

/-- C1, counterexample: the line `RGB:1,RGB:2,3` starts with the `RGB:`
prefix and its remainder after the prefix splits into exactly three
comma-separated fields of which the middle one, `RGB:2`, is not numeric —
so by the claim `parse` should yield no sample — yet the code strips
*every* `RGB:` occurrence and accepts the line as `(1, 2, 3)`. -/
theorem rgb_parse_marker_counterexample :
    ("RGB:1,RGB:2,3".data.take 4 = ['R', 'G', 'B', ':'] ∧
      splitComma ("RGB:1,RGB:2,3".data.drop 4) = ["1".data, "RGB:2".data, "3".data] ∧
      pyInt? "RGB:2".data = none) ∧
    parseRGB "RGB:1,RGB:2,3".data = some (1, 2, 3) := by
  decide

/-- C1, amended: a canonical `RGB:<r>,<g>,<b>` line parses to `(r, g, b)`;
in general, for a line with the `RGB:` prefix the parser removes every
occurrence of the marker anywhere in the line and then splits on commas:
it yields exactly the triple of the three fields when all three parse as
integers, no sample when the field count differs from 3, and no sample
when any resulting field is non-numeric. -/
theorem rgb_parse_strips_all_markers :
    (∀ r g b : Int, parseRGB (rgbLine r g b) = some (r, g, b)) ∧
    (∀ l p1 p2 p3 r g b, l.take 4 = ['R', 'G', 'B', ':'] →
      splitComma (stripAllRGB l) = [p1, p2, p3] →
      pyInt? p1 = some r → pyInt? p2 = some g → pyInt? p3 = some b →
      parseRGB l = some (r, g, b)) ∧
    (∀ l, l.take 4 = ['R', 'G', 'B', ':'] →
      (splitComma (stripAllRGB l)).length ≠ 3 → parseRGB l = none) ∧
    (∀ l p, l.take 4 = ['R', 'G', 'B', ':'] → p ∈ splitComma (stripAllRGB l) →
      pyInt? p = none → parseRGB l = none) := by
  refine ⟨parseRGB_rgbLine, ?_, ?_, ?_⟩
  · intro l p1 p2 p3 r g b h1 h2 hr hg hb
    unfold parseRGB
    rw [if_pos h1, h2]
    dsimp only
    rw [hr, hg, hb]
  · intro l h1 hlen
    unfold parseRGB
    rw [if_pos h1]
    generalize hxs : splitComma (stripAllRGB l) = xs at hlen
    rcases xs with _ | ⟨p1, _ | ⟨p2, _ | ⟨p3, _ | ⟨p4, ps⟩⟩⟩⟩ <;> first
      | rfl
      | simp at hlen
  · intro l p h1 hmem hnone
    unfold parseRGB
    rw [if_pos h1]
    generalize hxs : splitComma (stripAllRGB l) = xs at hmem
    rcases xs with _ | ⟨p1, _ | ⟨p2, _ | ⟨p3, _ | ⟨p4, ps⟩⟩⟩⟩ <;> try rfl
    simp only [List.mem_cons, List.not_mem_nil, or_false] at hmem
    dsimp only
    rcases hmem with rfl | rfl | rfl
    · simp only [hnone]
    · rcases hq : pyInt? p1 with _ | r1 <;> simp only [hq, hnone]
    · rcases hq : pyInt? p1 with _ | r1
      · simp only [hq]
      · rcases hq2 : pyInt? p2 with _ | r2 <;> simp only [hq, hq2, hnone]

theorem rgb_parse_strips_all_markers_witness :
    parseRGB (rgbLine (-7) 8 9) = some (-7, 8, 9) ∧
    parseRGB "RGB:1,2".data = none ∧
    parseRGB "RGB:1,x,3".data = none := by
  refine ⟨rgb_parse_strips_all_markers.1 (-7) 8 9, ?_, ?_⟩
  · exact rgb_parse_strips_all_markers.2.2.1 "RGB:1,2".data (by decide) (by decide)
  · exact rgb_parse_strips_all_markers.2.2.2 "RGB:1,x,3".data "x".data
      (by decide) (by decide) (by decide)

/-! ## C4: range checking of accepted samples -/

/-- C4, counterexample: the RGB-triplet format applies no range check —
the line `RGB:-1,2,3` is accepted as the sample `(-1, 2, 3)` although
`-1` is negative, i.e. outside any non-negative valid range. -/
theorem rgb_no_range_check_counterexample :
    parseRGB "RGB:-1,2,3".data = some (-1, 2, 3) ∧ (-1 : Int) < 0 := by
  decide

/-- C4, amended: only the bare-distance format range-checks its extracted
integer (to `[0, 500]`); the RGB-triplet format accepts arbitrary
integers, negative ones included. -/
theorem sample_range_check :
    (∀ l d, parseDist l = some d → 0 ≤ d ∧ d ≤ 500) ∧
    (∀ r g b : Int, parseRGB (rgbLine r g b) = some (r, g, b)) := by
  constructor
  · intro l d h
    unfold parseDist at h
    rcases hr : (digitRuns l).getLast? with _ | run <;> rw [hr] at h
    · cases h
    · dsimp only at h
      split at h
      · next hcond =>
        injection h with h2
        subst h2
        exact hcond
      · cases h
  · exact parseRGB_rgbLine

theorem sample_range_check_witness :
    ((0 : Int) ≤ 88 ∧ (88 : Int) ≤ 500) ∧ parseRGB (rgbLine (-1) 2 3) = some (-1, 2, 3) :=
  ⟨sample_range_check.1 "d=88".data 88 (by decide), sample_range_check.2 (-1) 2 3⟩

/-! ## Characterisation of one serial-loop step -/

theorem lineEvents_none {st : AppState} {line : List Char} (h : parseRGB line = none) :
    lineEvents st line = [] := by
  simp [lineEvents, h]

theorem stepState_none {st : AppState} {line : List Char} (h : parseRGB line = none) :
    stepState st line = st := by
  simp [stepState, lineEvents_none h]

theorem fires_none {st : AppState} {line : List Char} (h : parseRGB line = none) :
    fires st line = 0 := by
  simp [fires, lineEvents_none h]

theorem stepState_lt {st : AppState} {line : List Char} {s : Int × Int × Int}
    (h : parseRGB line = some s) (hlt : st.samples.length < MAX_SAMPLES) :
    stepState st line =
      { latest := s, samples := st.samples ++ [s],
        nftGenerated :=
          if st.samples.length + 1 = MAX_SAMPLES then true else st.nftGenerated } := by
  unfold stepState lineEvents
  rw [h]
  dsimp only
  rw [if_pos hlt]
  by_cases hfull : st.samples.length + 1 = MAX_SAMPLES
  · simp only [if_pos hfull]
    rfl
  · simp only [if_neg hfull]
    rfl

theorem stepState_ge {st : AppState} {line : List Char} {s : Int × Int × Int}
    (h : parseRGB line = some s) (hge : ¬st.samples.length < MAX_SAMPLES) :
    stepState st line = { st with latest := s } := by
  unfold stepState lineEvents
  rw [h]
  dsimp only
  rw [if_neg hge]
  rfl

theorem stepState_latest {st : AppState} {line : List Char} {s : Int × Int × Int}
    (h : parseRGB line = some s) : (stepState st line).latest = s := by
  by_cases hlt : st.samples.length < MAX_SAMPLES
  · rw [stepState_lt h hlt]
  · rw [stepState_ge h hlt]

theorem fires_some_eq {st : AppState} {line : List Char} {s : Int × Int × Int}
    (h : parseRGB line = some s) :
    fires st line =
      if st.samples.length < MAX_SAMPLES ∧ st.samples.length + 1 = MAX_SAMPLES
      then 1 else 0 := by
  unfold fires lineEvents
  rw [h]
  dsimp only
  by_cases hlt : st.samples.length < MAX_SAMPLES
  · rw [if_pos hlt]
    by_cases hfull : st.samples.length + 1 = MAX_SAMPLES
    · rw [if_pos hfull, if_pos ⟨hlt, hfull⟩]
      rfl
    · rw [if_neg hfull, if_neg (fun hc => hfull hc.2)]
      rfl
  · rw [if_neg hlt, if_neg (fun hc => hlt hc.1)]
    rfl

theorem runFires_ge :
    ∀ (ls : List (List Char)) (st : AppState), MAX_SAMPLES ≤ st.samples.length →
      runFires st ls = 0 ∧ (runState st ls).samples = st.samples := by
  intro ls
  induction ls with
  | nil => exact fun st _ => ⟨rfl, rfl⟩
  | cons l ls ih =>
    intro st hge
    simp only [runFires, runState]
    cases hp : parseRGB l with
    | none =>
      rw [fires_none hp, stepState_none hp]
      have h := ih st hge
      exact ⟨by rw [h.1], h.2⟩
    | some s =>
      have hlt : ¬st.samples.length < MAX_SAMPLES := by omega
      rw [fires_some_eq hp, if_neg (fun hc => hlt hc.1), stepState_ge hp hlt]
      have h := ih { st with latest := s } hge
      exact ⟨by rw [h.1], h.2⟩

theorem runFires_lt :
    ∀ (ls : List (List Char)) (st : AppState), st.samples.length < MAX_SAMPLES →
      runFires st ls =
        if MAX_SAMPLES ≤ st.samples.length + (ls.filterMap parseRGB).length
        then 1 else 0 := by
  intro ls
  induction ls with
  | nil =>
    intro st hlt
    simp only [runFires, List.filterMap_nil, List.length_nil]
    rw [if_neg (by omega)]
  | cons l ls ih =>
    intro st hlt
    simp only [runFires]
    cases hp : parseRGB l with
    | none =>
      rw [fires_none hp, stepState_none hp, ih st hlt, List.filterMap_cons_none hp,
        Nat.zero_add]
    | some s =>
      rw [fires_some_eq hp, List.filterMap_cons_some hp]
      have hsam : (stepState st l).samples.length = st.samples.length + 1 := by
        rw [stepState_lt hp hlt]
        simp
      by_cases hfull : st.samples.length + 1 = MAX_SAMPLES
      · rw [if_pos ⟨hlt, hfull⟩]
        have hge2 : MAX_SAMPLES ≤ (stepState st l).samples.length := by omega
        rw [(runFires_ge ls _ hge2).1, if_pos (by simp only [List.length_cons]; omega)]
      · rw [if_neg (fun hc => hfull hc.2)]
        have hlt2 : (stepState st l).samples.length < MAX_SAMPLES := by omega
        rw [ih _ hlt2, hsam, Nat.zero_add]
        simp only [List.length_cons]
        by_cases hC : MAX_SAMPLES ≤ st.samples.length + ((ls.filterMap parseRGB).length + 1)
        · rw [if_pos (by omega), if_pos hC]
        · rw [if_neg (by omega), if_neg hC]

theorem runState_capacity :
    ∀ (ls : List (List Char)) (st : AppState), st.samples.length ≤ MAX_SAMPLES →
      (runState st ls).samples.length ≤ MAX_SAMPLES := by
  intro ls
  induction ls with
  | nil => exact fun st h => h
  | cons l ls ih =>
    intro st hle
    simp only [runState]
    refine ih _ ?_
    cases hp : parseRGB l with
    | none => rw [stepState_none hp]; exact hle
    | some s =>
      by_cases hlt : st.samples.length < MAX_SAMPLES
      · rw [stepState_lt hp hlt]
        simp only [List.length_append, List.length_singleton]
        omega
      · rw [stepState_ge hp hlt]
        exact hle

/-! ## C2: the full trigger is edge-triggered, once per reset cycle -/

/-- C2: starting from an empty buffer (a fresh reset cycle), processing
any line sequence fires `generate_nft` exactly once if at least
`MAX_SAMPLES` samples are accepted and never otherwise; the same holds
verbatim after `reset`; and whenever a step fires, it is the step that
brings the buffer length from `MAX_SAMPLES - 1` to `MAX_SAMPLES`. -/
theorem full_trigger_once (st : AppState) (ls : List (List Char)) :
    (st.samples = [] →
      runFires st ls =
        if MAX_SAMPLES ≤ (ls.filterMap parseRGB).length then 1 else 0) ∧
    runFires (reset st) ls =
      (if MAX_SAMPLES ≤ (ls.filterMap parseRGB).length then 1 else 0) ∧
    (∀ line, 0 < fires st line →
      st.samples.length + 1 = MAX_SAMPLES ∧
        (stepState st line).samples.length = MAX_SAMPLES) := by
  refine ⟨?_, ?_, ?_⟩
  · intro h0
    have h := runFires_lt ls st (by rw [h0]; decide)
    rw [h, h0]
    simp only [List.length_nil, Nat.zero_add]
  · have h := runFires_lt ls (reset st) (by simp [reset, MAX_SAMPLES])
    rw [h]
    simp [reset]
  · intro line hf
    cases hp : parseRGB line with
    | none => rw [fires_none hp] at hf; omega
    | some s =>
      rw [fires_some_eq hp] at hf
      by_cases hc : st.samples.length < MAX_SAMPLES ∧ st.samples.length + 1 = MAX_SAMPLES
      · refine ⟨hc.2, ?_⟩
        rw [stepState_lt hp hc.1]
        simp only [List.length_append, List.length_singleton]
        omega
      · rw [if_neg hc] at hf; omega

theorem full_trigger_once_witness :
    runFires ⟨(0, 0, 0), [], false⟩ ["RGB:1,2,3".data] = 0 := by
  have h := (full_trigger_once ⟨(0, 0, 0), [], false⟩ ["RGB:1,2,3".data]).1 rfl
  rw [h]
  decide

/-! ## C3: the buffer never exceeds capacity -/

/-- C3: a step never pushes the buffer past `MAX_SAMPLES`; at (or past)
capacity an accepted sample leaves the buffer unchanged; below capacity
the accepted sample is appended at the end (arrival order preserved); and
along any run the buffer length stays within capacity. -/
theorem buffer_capacity_invariant (st : AppState) (line : List Char)
    (ls : List (List Char)) :
    (st.samples.length ≤ MAX_SAMPLES →
      (stepState st line).samples.length ≤ MAX_SAMPLES) ∧
    (MAX_SAMPLES ≤ st.samples.length → (stepState st line).samples = st.samples) ∧
    (∀ s, parseRGB line = some s → st.samples.length < MAX_SAMPLES →
      (stepState st line).samples = st.samples ++ [s]) ∧
    (st.samples.length ≤ MAX_SAMPLES →
      (runState st ls).samples.length ≤ MAX_SAMPLES) := by
  refine ⟨?_, ?_, ?_, runState_capacity ls st⟩
  · intro hle
    cases hp : parseRGB line with
    | none => rw [stepState_none hp]; exact hle
    | some s =>
      by_cases hlt : st.samples.length < MAX_SAMPLES
      · rw [stepState_lt hp hlt]
        simp only [List.length_append, List.length_singleton]
        omega
      · rw [stepState_ge hp hlt]
        exact hle
  · intro hge
    cases hp : parseRGB line with
    | none => rw [stepState_none hp]
    | some s => rw [stepState_ge hp (by omega)]
  · intro s hp hlt
    rw [stepState_lt hp hlt]

set_option maxRecDepth 4000 in
theorem buffer_capacity_invariant_witness :
    (stepState ⟨(0, 0, 0), [], false⟩ "RGB:1,2,3".data).samples = [] ++ [(1, 2, 3)] ∧
    (stepState ⟨(0, 0, 0), List.replicate 200 (0, 0, 0), true⟩ "RGB:1,2,3".data).samples
      = List.replicate 200 (0, 0, 0) := by
  refine ⟨?_, ?_⟩
  · exact (buffer_capacity_invariant ⟨(0, 0, 0), [], false⟩ "RGB:1,2,3".data []).2.2.1
      (1, 2, 3) (by decide) (by decide)
  · exact (buffer_capacity_invariant ⟨(0, 0, 0), List.replicate 200 (0, 0, 0), true⟩
      "RGB:1,2,3".data []).2.1 (by decide)

/-! ## C6: forwarding order of an accepted sample -/

set_option maxRecDepth 4000 in
/-- C6, counterexample: from the empty-buffer state the two effects of an
accepted sample are `setLatest` *first* and the buffer append *second*
(the claim asserts the buffer is updated first), and from a full buffer
the append never happens at all (the buffer never observes the value). -/
theorem forward_order_counterexample :
    lineEvents ⟨(0, 0, 0), [], false⟩ "RGB:1,2,3".data
      = [SerialEvent.setLatest (1, 2, 3), SerialEvent.append (1, 2, 3)] ∧
    lineEvents ⟨(0, 0, 0), List.replicate 200 (0, 0, 0), false⟩ "RGB:1,2,3".data
      = [SerialEvent.setLatest (1, 2, 3)] := by
  decide

/-- C6, amended: every accepted sample is forwarded first to the
latest-value channel (the first effect is `setLatest`) and then, only if
the buffer is below capacity, appended to the buffer; the latest channel
always observes the value, the buffer observes it exactly when it is not
yet full. -/
theorem forward_latest_then_append (st : AppState) (line : List Char)
    (s : Int × Int × Int) (h : parseRGB line = some s) :
    (lineEvents st line).head? = some (SerialEvent.setLatest s) ∧
    (st.samples.length < MAX_SAMPLES →
      (lineEvents st line).tail.head? = some (SerialEvent.append s)) ∧
    (MAX_SAMPLES ≤ st.samples.length → SerialEvent.append s ∉ lineEvents st line) ∧
    (stepState st line).latest = s ∧
    (st.samples.length < MAX_SAMPLES →
      (stepState st line).samples = st.samples ++ [s]) ∧
    (MAX_SAMPLES ≤ st.samples.length → (stepState st line).samples = st.samples) := by
  refine ⟨?_, ?_, ?_, stepState_latest h, ?_, ?_⟩
  · unfold lineEvents
    rw [h]
    rfl
  · intro hlt
    unfold lineEvents
    rw [h]
    dsimp only
    rw [if_pos hlt]
    rfl
  · intro hge
    unfold lineEvents
    rw [h]
    dsimp only
    rw [if_neg (by omega : ¬st.samples.length < MAX_SAMPLES)]
    simp
  · intro hlt
    rw [stepState_lt h hlt]
  · intro hge
    rw [stepState_ge h (by omega)]

theorem forward_latest_then_append_witness :
    (lineEvents ⟨(0, 0, 0), [], false⟩ "RGB:4,5,6".data).head?
      = some (SerialEvent.setLatest (4, 5, 6)) ∧
    (lineEvents ⟨(0, 0, 0), [], false⟩ "RGB:4,5,6".data).tail.head?
      = some (SerialEvent.append (4, 5, 6)) := by
  have h := forward_latest_then_append ⟨(0, 0, 0), [], false⟩ "RGB:4,5,6".data
    (4, 5, 6) (by decide)
  exact ⟨h.1, h.2.1 (by decide)⟩

/-! ## C9: reset clears exactly the collection state -/

/-- C9: `reset` empties the sample buffer and clears the completion flag,
and changes nothing else — in particular `latest_data` is untouched, so
the `r`, `g`, `b` fields reported by `/data` are unchanged and still show
the last accepted sample. -/
theorem reset_frame (st : AppState) (line : List Char) (s : Int × Int × Int)
    (h : parseRGB line = some s) :
    (reset st).samples = [] ∧
    (reset st).nftGenerated = false ∧
    (reset st).latest = st.latest ∧
    (get_data (reset st)).r = (get_data st).r ∧
    (get_data (reset st)).g = (get_data st).g ∧
    (get_data (reset st)).b = (get_data st).b ∧
    ((get_data (reset (stepState st line))).r,
      (get_data (reset (stepState st line))).g,
      (get_data (reset (stepState st line))).b) = s := by
  refine ⟨rfl, rfl, rfl, rfl, rfl, rfl, ?_⟩
  have hl : (stepState st line).latest = s := stepState_latest h
  simp only [get_data, reset, hl]

theorem reset_frame_witness :
    (reset ⟨(9, 9, 9), [], false⟩).samples = [] ∧
    ((get_data (reset (stepState ⟨(9, 9, 9), [], false⟩ "RGB:1,2,3".data))).r,
      (get_data (reset (stepState ⟨(9, 9, 9), [], false⟩ "RGB:1,2,3".data))).g,
      (get_data (reset (stepState ⟨(9, 9, 9), [], false⟩ "RGB:1,2,3".data))).b)
      = ((1 : Int), (2 : Int), (3 : Int)) := by
  have h := reset_frame ⟨(9, 9, 9), [], false⟩ "RGB:1,2,3".data (1, 2, 3) (by decide)
  exact ⟨h.1, h.2.2.2.2.2.2⟩

/-! ## Digit-run extraction (the bare-distance format) -/

theorem digitRunsAux_no_digit :
    ∀ (cs acc : List Char), (∀ c ∈ cs, c.isDigit = false) →
      digitRunsAux acc cs = if acc.isEmpty then [] else [acc.reverse] := by
  intro cs
  induction cs with
  | nil => intro acc _; rfl
  | cons c cs ih =>
    intro acc h
    have hc : c.isDigit = false := h c (by simp)
    have hrest : ∀ x ∈ cs, x.isDigit = false := fun x hx => h x (by simp [hx])
    simp only [digitRunsAux, hc, Bool.false_eq_true, if_false]
    by_cases hacc : acc.isEmpty = true
    · rw [if_pos hacc, if_pos hacc, ih [] hrest]
      rfl
    · rw [if_neg hacc, if_neg hacc, ih [] hrest]
      rfl

theorem digitRunsAux_digits :
    ∀ (ds acc cs : List Char), (∀ c ∈ ds, c.isDigit = true) →
      digitRunsAux acc (ds ++ cs) = digitRunsAux (ds.reverse ++ acc) cs := by
  intro ds
  induction ds with
  | nil => intro acc cs _; simp
  | cons d ds ih =>
    intro acc cs h
    have hd : d.isDigit = true := h d (by simp)
    show digitRunsAux acc (d :: (ds ++ cs)) = _
    simp only [digitRunsAux, hd, if_true]
    rw [ih (d :: acc) cs (fun x hx => h x (by simp [hx]))]
    congr 1
    simp

theorem digitRunsAux_getLast :
    ∀ (pre acc run post : List Char),
      run ≠ [] → (∀ c ∈ run, c.isDigit = true) → (∀ c ∈ post, c.isDigit = false) →
      ((pre = [] ∧ acc = []) ∨ (∃ c, pre.getLast? = some c ∧ c.isDigit = false)) →
      (digitRunsAux acc (pre ++ (run ++ post))).getLast? = some run := by
  intro pre
  induction pre with
  | nil =>
    intro acc run post hne hrun hpost hpre
    rcases hpre with ⟨_, rfl⟩ | ⟨c, hc, _⟩
    · show (digitRunsAux [] (run ++ post)).getLast? = some run
      rw [digitRunsAux_digits run [] post hrun,
        digitRunsAux_no_digit post (run.reverse ++ []) hpost]
      rw [if_neg (by simp [List.isEmpty_iff, hne])]
      simp
    · simp at hc
  | cons p pre ih =>
    intro acc run post hne hrun hpost hpre
    obtain ⟨cl, hcl, hcld⟩ :
        ∃ c, (p :: pre).getLast? = some c ∧ c.isDigit = false := by
      rcases hpre with ⟨h1, _⟩ | h2
      · cases h1
      · exact h2
    show (digitRunsAux acc (p :: (pre ++ (run ++ post)))).getLast? = some run
    by_cases hp : p.isDigit = true
    · cases pre with
      | nil =>
        rw [List.getLast?_singleton] at hcl
        injection hcl with he
        rw [he, hcld] at hp
        cases hp
      | cons q pre2 =>
        simp only [digitRunsAux, hp, if_true]
        apply ih (p :: acc) run post hne hrun hpost
        right
        refine ⟨cl, ?_, hcld⟩
        rw [List.getLast?_cons_cons] at hcl
        exact hcl
    · have hpf : p.isDigit = false := by simpa using hp
      have hprecond :
          (pre = [] ∧ ([] : List Char) = []) ∨
            (∃ c, pre.getLast? = some c ∧ c.isDigit = false) := by
        cases pre with
        | nil => exact Or.inl ⟨rfl, rfl⟩
        | cons q pre2 =>
          right
          rw [List.getLast?_cons_cons] at hcl
          exact ⟨cl, hcl, hcld⟩
      by_cases hacc : acc.isEmpty = true
      · simp only [digitRunsAux, hpf, Bool.false_eq_true, if_false, if_pos hacc]
        exact ih [] run post hne hrun hpost hprecond
      · simp only [digitRunsAux, hpf, Bool.false_eq_true, if_false, if_neg hacc]
        have htail := ih [] run post hne hrun hpost hprecond
        cases hXq : digitRunsAux [] (pre ++ (run ++ post)) with
        | nil =>
          rw [hXq] at htail
          simp at htail
        | cons y ys =>
          rw [hXq] at htail
          rw [List.getLast?_cons_cons]
          exact htail

/-! ## C5: the bare-numeric parse takes the last digit run, range [0, 500] -/

/-- C5: a line with no decimal digit yields no sample; and for any line
decomposed as `pre ++ run ++ post` where `run` is a maximal digit run and
`post` contains no further digit (i.e. `run` is the *last* digit run of
the line), the parse accepts exactly when the run's value is at most 500,
in which case the sample is that value. -/
theorem last_digit_run_parse (line : List Char) :
    ((∀ c ∈ line, c.isDigit = false) → parseDist line = none) ∧
    (∀ pre run post, line = pre ++ (run ++ post) → run ≠ [] →
      (∀ c ∈ run, c.isDigit = true) → (∀ c ∈ post, c.isDigit = false) →
      (∀ c, pre.getLast? = some c → c.isDigit = false) →
      parseDist line =
        if (natOfDigits run : Int) ≤ 500 then some (natOfDigits run : Int) else none) := by
  constructor
  · intro h
    unfold parseDist digitRuns
    rw [digitRunsAux_no_digit line [] h]
    rfl
  · intro pre run post hline hne hrun hpost hpre
    subst hline
    unfold parseDist digitRuns
    rw [digitRunsAux_getLast pre [] run post hne hrun hpost ?side]
    case side =>
      cases pre with
      | nil => exact Or.inl ⟨rfl, rfl⟩
      | cons q pre2 =>
        right
        cases hq : (q :: pre2).getLast? with
        | none => simp at hq
        | some c => exact ⟨c, rfl, hpre c hq⟩
    dsimp only
    by_cases hle : (natOfDigits run : Int) ≤ 500
    · rw [if_pos ⟨Int.natCast_nonneg _, hle⟩, if_pos hle]
    · rw [if_neg (fun hc => hle hc.2), if_neg hle]

theorem last_digit_run_parse_witness :
    parseDist "d=88".data = some 88 ∧ parseDist "dist: 12cm 734".data = none := by
  constructor
  · have h := (last_digit_run_parse "d=88".data).2 ['d', '='] ['8', '8'] []
      (by decide) (by decide) (by decide) (by decide)
      (by
        intro c hc
        injection hc with he
        rw [← he]
        rfl)
    rw [h]
    decide
  · have h := (last_digit_run_parse "dist: 12cm 734".data).2 "dist: 12cm ".data
      ['7', '3', '4'] [] (by decide) (by decide) (by decide) (by decide)
      (by
        intro c hc
        rw [(by decide : ("dist: 12cm ".data).getLast? = some ' ')] at hc
        injection hc with he
        rw [← he]
        rfl)
    rw [h]
    decide

/-! ## C10: the live-chart history buffer -/

theorem update_drop :
    ∀ (lines : List (List Char)) (buf : List Int), buf.length = MAX_HISTORY →
      update buf lines
        = (buf ++ lines.filterMap parseDist).drop (lines.filterMap parseDist).length := by
  intro lines
  induction lines with
  | nil => intro buf _; simp [update]
  | cons l lines ih =>
    intro buf hlen
    cases hp : parseDist l with
    | none =>
      have hstep : update buf (l :: lines) = update buf lines := by
        simp [update, hp]
      rw [hstep, ih buf hlen, List.filterMap_cons_none hp]
    | some d =>
      have hstep : update buf (l :: lines) = update (deque_append buf d) lines := by
        simp [update, hp]
      have hda : deque_append buf d = buf.drop 1 ++ [d] := by
        unfold deque_append
        rw [if_neg (show ¬buf.length < MAX_HISTORY by omega)]
      have hlen2 : (deque_append buf d).length = MAX_HISTORY := by
        rw [hda]
        simp only [List.length_append, List.length_drop, List.length_singleton,
          MAX_HISTORY] at hlen ⊢
        omega
      rw [hstep, ih _ hlen2, List.filterMap_cons_some hp, hda]
      cases buf with
      | nil => simp [MAX_HISTORY] at hlen
      | cons b0 bt =>
        have h1 : (b0 :: bt).drop 1 = bt := rfl
        rw [h1]
        simp only [List.append_assoc, List.singleton_append, List.cons_append,
          List.nil_append, List.length_cons, List.drop_succ_cons]

/-- C10: the history deque starts as 100 zeros, keeps length exactly
`MAX_HISTORY` after processing any line sequence, always equals the last
100 entries of "initial zeros followed by all accepted readings" (the
most recent readings, zero-padded), and each further accepted reading
evicts the oldest entry. -/
theorem live_chart_history (lines : List (List Char)) (v : Int) :
    data_buffer_init = List.replicate MAX_HISTORY 0 ∧
    (update data_buffer_init lines).length = MAX_HISTORY ∧
    update data_buffer_init lines
      = (data_buffer_init ++ lines.filterMap parseDist).drop
          (lines.filterMap parseDist).length ∧
    deque_append (update data_buffer_init lines) v
      = (update data_buffer_init lines).drop 1 ++ [v] := by
  have hinit : data_buffer_init.length = MAX_HISTORY := by simp [data_buffer_init]
  have hmain := update_drop lines data_buffer_init hinit
  have hlen : (update data_buffer_init lines).length = MAX_HISTORY := by
    rw [hmain]
    simp only [List.length_drop, List.length_append, hinit]
    omega
  refine ⟨rfl, hlen, hmain, ?_⟩
  unfold deque_append
  rw [if_neg (show ¬(update data_buffer_init lines).length < MAX_HISTORY by omega)]

/-! ## C7: the spiral renderer is deterministic, each circle depends only
on (index, total count, sample, fixed constants) -/

theorem enum_getElem? {α : Type} (l : List α) (i : Nat) :
    l.enum[i]? = l[i]?.map fun a => (i, a) := by
  rw [List.enum_eq_enumFrom, List.getElem?_enumFrom]
  simp

/-- C7: rendering is a pure function of the ordered sample list and the
variant constants (two invocations on equal inputs give equal outputs);
there is one circle per sample; the `i`-th circle is exactly
`circleFor p L i sampleᵢ`, a function of the index, the total count, the
sample's values and the fixed constants only; and two sample lists of
equal length that agree at an index produce the same circle there. -/
theorem spiral_renderer_deterministic (p : RenderParams)
    (xs ys : List (Int × Int × Int)) :
    (xs = ys → generateArt p xs = generateArt p ys) ∧
    (generateArt p xs).circles.length = xs.length ∧
    (∀ (i : Nat) (s : Int × Int × Int), xs[i]? = some s →
      (generateArt p xs).circles[i]? = some (circleFor p xs.length i s)) ∧
    (xs.length = ys.length → ∀ i : Nat, xs[i]? = ys[i]? →
      (generateArt p xs).circles[i]? = (generateArt p ys).circles[i]?) := by
  refine ⟨fun h => by rw [h], ?_, ?_, ?_⟩
  · simp [generateArt, List.enum_eq_enumFrom]
  · intro i s hs
    simp only [generateArt, List.getElem?_map, enum_getElem?, hs, Option.map_some']
  · intro hlen i heq
    simp only [generateArt, List.getElem?_map, enum_getElem?, hlen, heq]

theorem spiral_renderer_deterministic_witness :
    (generateArt appRenderParams [(1, 2, 3)]).circles[0]?
      = some (circleFor appRenderParams 1 0 (1, 2, 3)) ∧
    generateArt appRenderParams [(1, 2, 3)]
      = generateArt appRenderParams [(1, 2, 3)] :=
  ⟨(spiral_renderer_deterministic appRenderParams [(1, 2, 3)] [(1, 2, 3)]).2.2.1
      0 (1, 2, 3) rfl,
    (spiral_renderer_deterministic appRenderParams [(1, 2, 3)] [(1, 2, 3)]).1 rfl⟩

/-! ## C8: the empty render and the division guard -/

/-- C8: with no samples both render variants return the bare background
canvas (no circles drawn), and the progress formula `i / max(1, L)` has a
positive denominator for every index and sample count — `tProgress` is a
true quotient, never a division by zero. -/
theorem render_empty_and_progress_guard :
    generate_nft [] = { size := (800, 800), background := (10, 10, 20), circles := [] } ∧
    main_render [] = { size := (800, 800), background := (10, 10, 20), circles := [] } ∧
    ∀ i L : Nat, (0 : ℚ) < ((max 1 L : Nat) : ℚ) ∧
      tProgress i L * ((max 1 L : Nat) : ℚ) = (i : ℚ) := by
  refine ⟨rfl, rfl, fun i L => ?_⟩
  have h1 : 0 < max 1 L := Nat.lt_of_lt_of_le Nat.zero_lt_one (Nat.le_max_left 1 L)
  have hpos : (0 : ℚ) < ((max 1 L : Nat) : ℚ) := by exact_mod_cast h1
  refine ⟨hpos, ?_⟩
  unfold tProgress
  exact div_mul_cancel₀ _ (ne_of_gt hpos)
